import Mathlib

/-!
Verification of the dynamics-compressor core of the
`dynamics-compessor-node-anatomy` repository.

The embedding models the TypeScript source over the real numbers:

* `applyCustomCompression` (src/src/App.tsx, lines 217-275): the
  sample-accurate compressor.
* `calculateEnvelope` and `calculateGainReduction`
  (src/src/waveshape/Waveshape.tsx): the visualization sampler.
* the peak-normalization post-pass of `applyCompression`
  (src/unnamed/part_000, lines 79-97).

Audio buffers are `List (List ℝ)` (channels of samples); the sample rate
is passed explicitly (the code reads it off the buffer object).
-/

namespace Compressor

noncomputable section

/-- Compressor parameter set, `ICompressorParams` of src/src/App.tsx. -/
structure Params where
  threshold : ℝ
  knee : ℝ
  ratio : ℝ
  attack : ℝ
  release : ℝ

/-- Time-constant coefficient `Math.exp(-1 / (sampleRate * t))`.
In JavaScript, when `sampleRate * t` is (positive) zero the division yields
`-Infinity` and `Math.exp(-Infinity)` is `0`; the `if` branch encodes that
IEEE behaviour in the real-number embedding (real division by zero would
instead give `exp 0 = 1`, which is not what the program computes). -/
def expCoeff (sr t : ℝ) : ℝ :=
  if sr * t = 0 then 0 else Real.exp (-1 / (sr * t))

/-- Attack coefficient of `applyCustomCompression` (src/src/App.tsx line 233):
`Math.exp(-1 / (sampleRate * attack))` — note: no epsilon floor here. -/
def compressorAttackCoeff (sr : ℝ) (p : Params) : ℝ :=
  expCoeff sr p.attack

/-- Release coefficient of `applyCustomCompression` (src/src/App.tsx line 234):
`Math.exp(-1 / (sampleRate * release))` — note: no epsilon floor here. -/
def compressorReleaseCoeff (sr : ℝ) (p : Params) : ℝ :=
  expCoeff sr p.release

/-- Decibel conversion `env > 0 ? 20 * Math.log10(env) : -100`
(src/src/App.tsx line 255, src/src/waveshape/Waveshape.tsx line 157). -/
def dbOf (level : ℝ) : ℝ :=
  if level > 0 then 20 * Real.logb 10 level else -100

/-- The gain-reduction curve of `applyCustomCompression`
(src/src/App.tsx lines 256-265): full-ratio above the knee, quadratic
soft-knee interpolation inside the knee (guarded by `knee > 0`), zero below. -/
def gainReductionDb (levelDb th k ρ : ℝ) : ℝ :=
  let kneeStart := th - k / 2
  let kneeEnd := th + k / 2
  if levelDb > kneeEnd then
    (levelDb - th) * (1 - 1 / ρ)
  else if levelDb > kneeStart ∧ k > 0 then
    ((1 - 1 / ρ) * ((levelDb - kneeStart) * (levelDb - kneeStart))) / (2 * (kneeEnd - kneeStart))
  else 0

/-- The gain-reduction curve of `calculateGainReduction`
(src/src/waveshape/Waveshape.tsx lines 160-174); identical to
`gainReductionDb` except for an extra `kneeRange > 0` guard on the
knee branch. -/
def gainReductionDbVis (levelDb th k ρ : ℝ) : ℝ :=
  let kneeStart := th - k / 2
  let kneeEnd := th + k / 2
  let kneeRange := kneeEnd - kneeStart
  if levelDb > kneeEnd then
    (levelDb - th) * (1 - 1 / ρ)
  else if levelDb > kneeStart ∧ k > 0 ∧ kneeRange > 0 then
    ((1 - 1 / ρ) * ((levelDb - kneeStart) * (levelDb - kneeStart))) / (2 * kneeRange)
  else 0

/-- One envelope-follower update of the sample-accurate compressor
(src/src/App.tsx lines 249-253): attack coefficient when the input rises
above the state, release coefficient otherwise. -/
def envStep (cA cR s x : ℝ) : ℝ :=
  if x > s then x + (s - x) * cA else x + (s - x) * cR

/-- Linear gain `Math.pow(10, -gainReductionDb / 20)`
(src/src/App.tsx line 267). -/
def gainLin (grDb : ℝ) : ℝ :=
  (10 : ℝ) ^ (-grDb / 20)

/-- The per-channel loop of `applyCustomCompression`
(src/src/App.tsx lines 243-269), threading the envelope state. -/
def compressChannel (p : Params) (cA cR : ℝ) : ℝ → List ℝ → List ℝ
  | _, [] => []
  | s, sample :: rest =>
    let env := envStep cA cR s |sample|
    let grDb := gainReductionDb (dbOf env) p.threshold p.knee p.ratio
    sample * gainLin grDb :: compressChannel p cA cR env rest

/-- `applyCustomCompression` (src/src/App.tsx lines 217-275): each channel
processed independently with its envelope state initialized to 0. -/
def applyCustomCompression (sr : ℝ) (p : Params) (buffer : List (List ℝ)) :
    List (List ℝ) :=
  buffer.map (compressChannel p (compressorAttackCoeff sr p) (compressorReleaseCoeff sr p) 0)

/-- The two curve definitions agree: the extra `kneeRange > 0` guard in the
visualization copy is equivalent to its `knee > 0` conjunct. -/
theorem gainReductionDbVis_eq (levelDb th k ρ : ℝ) :
    gainReductionDbVis levelDb th k ρ = gainReductionDb levelDb th k ρ := by
  unfold gainReductionDb gainReductionDbVis
  have h : (th + k / 2) - (th - k / 2) = k := by ring
  by_cases h1 : levelDb > th + k / 2
  · simp [h1]
  · by_cases h2 : levelDb > th - k / 2
    · by_cases h3 : k > 0
      · simp [h1, h2, h3, h]
      · simp [h1, h2, h3, h]
    · simp [h1, h2]

/-- The curve is never negative when `knee ≥ 0` and `ratio ≥ 1`. -/
theorem gainReductionDb_nonneg (levelDb th k ρ : ℝ) (hk : 0 ≤ k) (hρ : 1 ≤ ρ) :
    0 ≤ gainReductionDb levelDb th k ρ := by
  have hρ0 : (0 : ℝ) < ρ := lt_of_lt_of_le one_pos hρ
  have hα : 0 ≤ 1 - 1 / ρ := by
    have : 1 / ρ ≤ 1 := by
      rw [div_le_one hρ0]; exact hρ
    linarith
  unfold gainReductionDb
  by_cases h1 : levelDb > th + k / 2
  · simp only [h1, if_true]
    have : 0 ≤ levelDb - th := by linarith
    exact mul_nonneg this hα
  · simp only [h1, if_false]
    by_cases h2 : levelDb > th - k / 2 ∧ k > 0
    · simp only [h2, if_true]
      apply div_nonneg
      · exact mul_nonneg hα (mul_self_nonneg _)
      · have : (th + k / 2) - (th - k / 2) = k := by ring
        rw [this]; linarith [h2.2]
    · simp [h2]

/-- C1, lower piece. -/
theorem gainReductionDb_below (levelDb th k ρ : ℝ) (hk : 0 ≤ k)
    (h : levelDb ≤ th - k / 2) : gainReductionDb levelDb th k ρ = 0 := by
  unfold gainReductionDb
  have h1 : ¬ levelDb > th + k / 2 := by push_neg; linarith
  have h2 : ¬ levelDb > th - k / 2 := by push_neg; linarith
  simp [h1, h2]

/-- C1, upper piece (holds at the boundary too: the knee-branch value at
`levelDb = threshold + knee/2` coincides with the full-ratio formula). -/
theorem gainReductionDb_above (levelDb th k ρ : ℝ) (hk : 0 ≤ k)
    (h : th + k / 2 ≤ levelDb) :
    gainReductionDb levelDb th k ρ = (levelDb - th) * (1 - 1 / ρ) := by
  unfold gainReductionDb
  by_cases h1 : levelDb > th + k / 2
  · simp [h1]
  · have heq : levelDb = th + k / 2 := le_antisymm (not_lt.mp h1) h
    by_cases hkpos : k > 0
    · have h2 : levelDb > th - k / 2 := by rw [heq]; linarith
      simp only [h1, if_false, h2, hkpos, and_true, if_true]
      have hrange : (th + k / 2) - (th - k / 2) = k := by ring
      have hx : levelDb - (th - k / 2) = k := by rw [heq]; ring
      rw [hrange, hx, heq]
      field_simp
      ring
    · have hk0 : k = 0 := le_antisymm (not_lt.mp hkpos) hk
      subst hk0
      simp only [h1, if_false, hkpos, and_false, if_false]
      rw [heq]; ring

/-- C1: the gain-reduction curve is piecewise as specified. For every
threshold, `knee ≥ 0`, `ratio > 1` and input level: below
`threshold - knee/2` the reduction is 0, and at or above
`threshold + knee/2` it is `(levelDb - threshold) * (1 - 1/ratio)` — for
both the compressor's copy of the curve and the visualization's copy. -/
theorem c1_gain_curve_piecewise (levelDb th k ρ : ℝ) (hk : 0 ≤ k) (_hρ : 1 < ρ) :
    (levelDb ≤ th - k / 2 → gainReductionDb levelDb th k ρ = 0 ∧
      gainReductionDbVis levelDb th k ρ = 0) ∧
    (th + k / 2 ≤ levelDb →
      gainReductionDb levelDb th k ρ = (levelDb - th) * (1 - 1 / ρ) ∧
      gainReductionDbVis levelDb th k ρ = (levelDb - th) * (1 - 1 / ρ)) := by
  constructor
  · intro h
    rw [gainReductionDbVis_eq]
    exact ⟨gainReductionDb_below levelDb th k ρ hk h,
      gainReductionDb_below levelDb th k ρ hk h⟩
  · intro h
    rw [gainReductionDbVis_eq]
    exact ⟨gainReductionDb_above levelDb th k ρ hk h,
      gainReductionDb_above levelDb th k ρ hk h⟩

/-- Witness for C1 at threshold `-20`, knee `10`, ratio `4`: level `-30`
is below the knee, level `-10` is above it. -/
theorem c1_gain_curve_piecewise_witness :
    (0 : ℝ) ≤ 10 ∧ (1 : ℝ) < 4 ∧
    ((-30 : ℝ) ≤ -20 - 10 / 2 → gainReductionDb (-30) (-20) 10 4 = 0 ∧
      gainReductionDbVis (-30) (-20) 10 4 = 0) ∧
    ((-20 : ℝ) + 10 / 2 ≤ -10 →
      gainReductionDb (-10) (-20) 10 4 = ((-10) - (-20)) * (1 - 1 / 4) ∧
      gainReductionDbVis (-10) (-20) 10 4 = ((-10) - (-20)) * (1 - 1 / 4)) := by
  refine ⟨by norm_num, by norm_num, ?_, ?_⟩
  · exact (c1_gain_curve_piecewise (-30) (-20) 10 4 (by norm_num) (by norm_num)).1
  · exact fun h => (c1_gain_curve_piecewise (-10) (-20) 10 4 (by norm_num) (by norm_num)).2 h

/-- Knee-branch characterization of the curve. -/
theorem gainReductionDb_knee (levelDb th k ρ : ℝ) (h1 : ¬ th + k / 2 < levelDb)
    (h2 : th - k / 2 < levelDb) (hk : 0 < k) :
    gainReductionDb levelDb th k ρ =
      ((1 - 1 / ρ) * ((levelDb - (th - k / 2)) * (levelDb - (th - k / 2)))) / (2 * k) := by
  unfold gainReductionDb
  rw [if_neg h1, if_pos ⟨h2, hk⟩]
  have : (th + k / 2) - (th - k / 2) = k := by ring
  rw [this]

/-- Below-knee characterization of the curve. -/
theorem gainReductionDb_zero_of (levelDb th k ρ : ℝ) (h1 : ¬ th + k / 2 < levelDb)
    (h2 : ¬ (th - k / 2 < levelDb ∧ 0 < k)) :
    gainReductionDb levelDb th k ρ = 0 := by
  unfold gainReductionDb
  rw [if_neg h1, if_neg h2]

/-- Monotonicity of the compressor's curve in the input level. -/
theorem gainReductionDb_mono (th k ρ : ℝ) (hk : 0 ≤ k) (hρ : 1 ≤ ρ) :
    Monotone (fun levelDb => gainReductionDb levelDb th k ρ) := by
  intro L1 L2 hL
  have hρ0 : (0 : ℝ) < ρ := lt_of_lt_of_le one_pos hρ
  have hα : 0 ≤ 1 - 1 / ρ := by
    have : 1 / ρ ≤ 1 := by rw [div_le_one hρ0]; exact hρ
    linarith
  simp only
  by_cases h1 : th + k / 2 ≤ L1
  · rw [gainReductionDb_above L1 th k ρ hk h1,
      gainReductionDb_above L2 th k ρ hk (le_trans h1 hL)]
    exact mul_le_mul_of_nonneg_right (by linarith) hα
  · push_neg at h1
    by_cases hkn : th - k / 2 < L1 ∧ 0 < k
    · obtain ⟨hx1, hkpos⟩ := hkn
      have e1 := gainReductionDb_knee L1 th k ρ (not_lt.mpr h1.le) hx1 hkpos
      have hx1nn : 0 ≤ L1 - (th - k / 2) := by linarith
      have hx1k : L1 - (th - k / 2) ≤ k := by linarith
      by_cases h2 : th + k / 2 ≤ L2
      · rw [e1, gainReductionDb_above L2 th k ρ hk h2]
        rw [div_le_iff₀ (by linarith : (0 : ℝ) < 2 * k)]
        calc (1 - 1 / ρ) * ((L1 - (th - k / 2)) * (L1 - (th - k / 2)))
            ≤ (1 - 1 / ρ) * (k * k) :=
              mul_le_mul_of_nonneg_left (mul_self_le_mul_self hx1nn hx1k) hα
          _ ≤ (L2 - th) * (1 - 1 / ρ) * (2 * k) := by
              nlinarith [mul_nonneg (mul_nonneg hα hkpos.le)
                (by linarith : (0 : ℝ) ≤ 2 * (L2 - th) - k)]
      · push_neg at h2
        have hx2 : th - k / 2 < L2 := lt_of_lt_of_le hx1 hL
        rw [e1, gainReductionDb_knee L2 th k ρ (not_lt.mpr h2.le) hx2 hkpos]
        gcongr ?_ / _
        exact mul_le_mul_of_nonneg_left
          (mul_self_le_mul_self hx1nn (by linarith)) hα
    · rw [gainReductionDb_zero_of L1 th k ρ (not_lt.mpr h1.le) hkn]
      exact gainReductionDb_nonneg L2 th k ρ hk hρ

/-- C6: for fixed threshold, `knee ≥ 0` and `ratio ≥ 1`, the gain-reduction
amount is a non-decreasing function of the input level, for both the
compressor's copy of the curve and the visualization's copy. -/
theorem c6_gain_curve_monotone (th k ρ : ℝ) (hk : 0 ≤ k) (hρ : 1 ≤ ρ) :
    Monotone (fun levelDb => gainReductionDb levelDb th k ρ) ∧
    Monotone (fun levelDb => gainReductionDbVis levelDb th k ρ) := by
  refine ⟨gainReductionDb_mono th k ρ hk hρ, ?_⟩
  simp only [gainReductionDbVis_eq]
  exact gainReductionDb_mono th k ρ hk hρ

/-- Witness for C6 at threshold `-20`, knee `10`, ratio `4`, comparing the
levels `-30 ≤ -10`. -/
theorem c6_gain_curve_monotone_witness :
    (0 : ℝ) ≤ 10 ∧ (1 : ℝ) ≤ 4 ∧
    gainReductionDb (-30) (-20) 10 4 ≤ gainReductionDb (-10) (-20) 10 4 ∧
    gainReductionDbVis (-30) (-20) 10 4 ≤ gainReductionDbVis (-10) (-20) 10 4 :=
  ⟨by norm_num, by norm_num,
    (c6_gain_curve_monotone (-20) 10 4 (by norm_num) (by norm_num)).1
      (by norm_num : (-30 : ℝ) ≤ -10),
    (c6_gain_curve_monotone (-20) 10 4 (by norm_num) (by norm_num)).2
      (by norm_num : (-30 : ℝ) ≤ -10)⟩

/-- With `ratio = 1` the curve is identically zero. -/
theorem gainReductionDb_ratio_one (levelDb th k : ℝ) :
    gainReductionDb levelDb th k 1 = 0 := by
  simp only [gainReductionDb]
  split_ifs <;> norm_num

/-- Zero reduction maps to unit linear gain. -/
theorem gainLin_zero : gainLin 0 = 1 := by
  unfold gainLin
  norm_num

/-- The linear gain is always strictly positive. -/
theorem gainLin_pos (grDb : ℝ) : 0 < gainLin grDb :=
  Real.rpow_pos_of_pos (by norm_num) _

/-- Nonnegative reduction maps to linear gain at most one. -/
theorem gainLin_le_one (grDb : ℝ) (hg : 0 ≤ grDb) : gainLin grDb ≤ 1 := by
  unfold gainLin
  apply Real.rpow_le_one_of_one_le_of_nonpos (by norm_num)
  apply div_nonpos_of_nonpos_of_nonneg <;> linarith

/-- With `ratio = 1` the per-channel loop is the identity on the samples,
for any envelope state and coefficients. -/
theorem compressChannel_ratio_one (p : Params) (hρ : p.ratio = 1) (cA cR : ℝ)
    (s : ℝ) (ch : List ℝ) : compressChannel p cA cR s ch = ch := by
  induction ch generalizing s with
  | nil => rfl
  | cons sample rest ih =>
    simp only [compressChannel]
    rw [hρ, gainReductionDb_ratio_one, gainLin_zero, mul_one, ih]

/-- C2: with `ratio = 1` (any threshold, knee, attack, release), the sample
compressor returns a buffer numerically identical to the input; the gain
reduction is 0 and the linear gain is 1 at every level. -/
theorem c2_ratio_one_identity (sr : ℝ) (p : Params) (hρ : p.ratio = 1)
    (buffer : List (List ℝ)) :
    applyCustomCompression sr p buffer = buffer ∧
    (∀ levelDb : ℝ, gainReductionDb levelDb p.threshold p.knee p.ratio = 0 ∧
      gainLin (gainReductionDb levelDb p.threshold p.knee p.ratio) = 1) := by
  constructor
  · unfold applyCustomCompression
    rw [List.map_congr_left (fun ch _ => compressChannel_ratio_one p hρ _ _ 0 ch)]
    exact List.map_id _
  · intro levelDb
    rw [hρ, gainReductionDb_ratio_one]
    exact ⟨rfl, gainLin_zero⟩

/-- Witness for C2 on a concrete two-channel buffer. -/
theorem c2_ratio_one_identity_witness :
    applyCustomCompression 44100 ⟨-20, 10, 1, 0.003, 0.01⟩
        [[1/2, -1/4, 1], [0, 9/10]] = [[1/2, -1/4, 1], [0, 9/10]] ∧
    (∀ levelDb : ℝ,
      gainReductionDb levelDb (Params.mk (-20) 10 1 0.003 0.01).threshold
        (Params.mk (-20) 10 1 0.003 0.01).knee
        (Params.mk (-20) 10 1 0.003 0.01).ratio = 0 ∧
      gainLin (gainReductionDb levelDb (Params.mk (-20) 10 1 0.003 0.01).threshold
        (Params.mk (-20) 10 1 0.003 0.01).knee
        (Params.mk (-20) 10 1 0.003 0.01).ratio) = 1) :=
  c2_ratio_one_identity 44100 ⟨-20, 10, 1, 0.003, 0.01⟩ rfl _

/-- The per-channel loop never increases the magnitude of any sample, for
`ratio ≥ 1` and `knee ≥ 0`, whatever the envelope state and coefficients. -/
theorem compressChannel_bounded (p : Params) (hρ : 1 ≤ p.ratio) (hk : 0 ≤ p.knee)
    (cA cR : ℝ) (s : ℝ) (ch : List ℝ) :
    List.Forall₂ (fun o x => |o| ≤ |x|) (compressChannel p cA cR s ch) ch := by
  induction ch generalizing s with
  | nil => exact List.Forall₂.nil
  | cons sample rest ih =>
    simp only [compressChannel]
    refine List.Forall₂.cons ?_ (ih _)
    rw [abs_mul, abs_of_pos (gainLin_pos _)]
    exact mul_le_of_le_one_right (abs_nonneg _)
      (gainLin_le_one _ (gainReductionDb_nonneg _ _ _ _ hk hρ))

/-- C3: for `ratio ≥ 1` and `knee ≥ 0` the sample compressor never increases
magnitude: pointwise `|output| ≤ |input|` over every channel and sample
(the `Forall₂` relation also forces the output shape to match the input). -/
theorem c3_bounded (sr : ℝ) (p : Params) (hρ : 1 ≤ p.ratio) (hk : 0 ≤ p.knee)
    (buffer : List (List ℝ)) :
    List.Forall₂ (List.Forall₂ fun o x => |o| ≤ |x|)
      (applyCustomCompression sr p buffer) buffer := by
  unfold applyCustomCompression
  induction buffer with
  | nil => exact List.Forall₂.nil
  | cons ch rest ih =>
    exact List.Forall₂.cons (compressChannel_bounded p hρ hk _ _ 0 ch) ih

/-- Witness for C3 on a concrete buffer at ratio 4, knee 10. -/
theorem c3_bounded_witness :
    (1 : ℝ) ≤ (Params.mk (-20) 10 4 0.003 0.01).ratio ∧
    (0 : ℝ) ≤ (Params.mk (-20) 10 4 0.003 0.01).knee ∧
    List.Forall₂ (List.Forall₂ fun o x => |o| ≤ |x|)
      (applyCustomCompression 44100 ⟨-20, 10, 4, 0.003, 0.01⟩ [[1/2, -1/4], [1]])
      [[1/2, -1/4], [1]] :=
  ⟨by norm_num, by norm_num,
    c3_bounded 44100 ⟨-20, 10, 4, 0.003, 0.01⟩ (by norm_num) (by norm_num) _⟩

/-- `Math.ceil(len / n)` for natural `len`, `n` with `n > 0`
(src/src/waveshape/Waveshape.tsx line 80 and line 135). -/
def ceilDiv (len n : ℕ) : ℕ := (len + n - 1) / n

/-- Epsilon floor `Math.max(t, 0.00001)`
(src/src/waveshape/Waveshape.tsx lines 83-84 and 138-139). -/
def safeTime (t : ℝ) : ℝ := max t 0.00001

/-- Envelope-pass coefficient of `calculateEnvelope`
(src/src/waveshape/Waveshape.tsx lines 87-88): the floored time constant. -/
def envCoeff (sr t : ℝ) : ℝ := expCoeff sr (safeTime t)

/-- Gain-reduction-pass coefficient of `calculateGainReduction`
(src/src/waveshape/Waveshape.tsx lines 143-147): the floored time constant
scaled down by the fixed factor 0.001. -/
def grCoeff (sr t : ℝ) : ℝ := expCoeff sr (safeTime t * 0.001)

/-- Segment peak scan (src/src/waveshape/Waveshape.tsx lines 94-101):
`peak = 0; for j: if |data[j]| > peak then peak = |data[j]|`. -/
def peakOf (l : List ℝ) : ℝ := l.foldl (fun p x => max p |x|) 0

/-- The per-segment loop of `calculateEnvelope`
(src/src/waveshape/Waveshape.tsx lines 92-112): one smoothing step
`envValue += (peak - envValue) * (1 - coeff)` per aggregated segment peak,
storing `min envValue 1` while carrying the unclamped state forward. -/
def envLoop (data : List ℝ) (step : ℕ) (cA cR : ℝ) : ℝ → ℕ → ℕ → List ℝ
  | _, _, 0 => []
  | s, i, Nat.succ m =>
    let peak := peakOf ((data.drop (i * step)).take step)
    let s' := if peak > s then s + (peak - s) * (1 - cA) else s + (peak - s) * (1 - cR)
    min s' 1 :: envLoop data step cA cR s' (i + 1) m

/-- `calculateEnvelope` (src/src/waveshape/Waveshape.tsx lines 72-115). -/
def calculateEnvelope (data : List ℝ) (sr a r : ℝ) (n : ℕ) : List ℝ :=
  envLoop data (ceilDiv data.length n) (envCoeff sr a) (envCoeff sr r) 0 0 n

/-- The envelope loop exactly as the claim's sentence words the state
update: `s' = x + (s - x) * (1 - coeff)` (with everything else — segments,
peaks, coefficient choice, clamped output — unchanged). Stated from the
spec's words for comparison with the source's `envLoop`. -/
def envLoopClaim (data : List ℝ) (step : ℕ) (cA cR : ℝ) : ℝ → ℕ → ℕ → List ℝ
  | _, _, 0 => []
  | s, i, Nat.succ m =>
    let peak := peakOf ((data.drop (i * step)).take step)
    let s' := if peak > s then peak + (s - peak) * (1 - cA) else peak + (s - peak) * (1 - cR)
    min s' 1 :: envLoopClaim data step cA cR s' (i + 1) m

/-- `calculateEnvelope` as the claim words it (update `x + (s-x)*(1-coeff)`). -/
def calculateEnvelopeClaim (data : List ℝ) (sr a r : ℝ) (n : ℕ) : List ℝ :=
  envLoopClaim data (ceilDiv data.length n) (envCoeff sr a) (envCoeff sr r) 0 0 n

/-- The envelope loop with the amended update `s' = x + (s - x) * coeff`
(the source's `s + (x - s) * (1 - coeff)` rewritten around the peak). -/
def envLoopAmended (data : List ℝ) (step : ℕ) (cA cR : ℝ) : ℝ → ℕ → ℕ → List ℝ
  | _, _, 0 => []
  | s, i, Nat.succ m =>
    let peak := peakOf ((data.drop (i * step)).take step)
    let s' := if peak > s then peak + (s - peak) * cA else peak + (s - peak) * cR
    min s' 1 :: envLoopAmended data step cA cR s' (i + 1) m

/-- `calculateEnvelope` with the amended per-segment update. -/
def calculateEnvelopeAmended (data : List ℝ) (sr a r : ℝ) (n : ℕ) : List ℝ :=
  envLoopAmended data (ceilDiv data.length n) (envCoeff sr a) (envCoeff sr r) 0 0 n

/-- The per-index loop of `calculateGainReduction`
(src/src/waveshape/Waveshape.tsx lines 149-184): sample the envelope,
convert to dB, evaluate the curve, smooth. -/
def grLoop (envelope : List ℝ) (step : ℕ) (th k ρ cA cR : ℝ) :
    ℝ → ℕ → ℕ → List ℝ
  | _, _, 0 => []
  | g, i, Nat.succ m =>
    let envIdx := min (i * step) (envelope.length - 1)
    let envValue := envelope.getD envIdx 0
    let gr := gainReductionDbVis (dbOf envValue) th k ρ
    let g' := if gr > g then gr + (g - gr) * cA else gr + (g - gr) * cR
    g' :: grLoop envelope step th k ρ cA cR g' (i + 1) m

/-- `calculateGainReduction` (src/src/waveshape/Waveshape.tsx lines 118-187).
The step `Math.ceil(envelope.length / outputLength) || 1` is `max (ceil) 1`. -/
def calculateGainReduction (envelope : List ℝ) (sr th k ρ a r : ℝ) (n : ℕ) :
    List ℝ :=
  if ρ ≤ 1 then List.replicate n 0
  else
    grLoop envelope (max (ceilDiv envelope.length n) 1) th k ρ
      (grCoeff sr a) (grCoeff sr r) 0 0 n

/-- Peak scan of the normalization post-pass
(src/unnamed/part_000 lines 80-87): maximum absolute sample over all
channels, starting from 0. -/
def maxPeak (b : List (List ℝ)) : ℝ :=
  b.foldl (fun acc ch => ch.foldl (fun m x => max m |x|) acc) 0

/-- The normalization post-pass (src/unnamed/part_000 lines 89-97): if the
peak exceeds 1, scale every sample of every channel by `1 / maxPeak`;
otherwise leave the buffer unchanged. -/
def normalize (b : List (List ℝ)) : List (List ℝ) :=
  if 1 < maxPeak b then b.map (List.map fun x => x * (1 / maxPeak b)) else b

/-- One-step unfolding of `envLoop`. -/
theorem envLoop_succ (data : List ℝ) (step : ℕ) (cA cR s : ℝ) (i m : ℕ) :
    envLoop data step cA cR s i (m + 1) =
      (let peak := peakOf ((data.drop (i * step)).take step)
       let s' := if peak > s then s + (peak - s) * (1 - cA)
                 else s + (peak - s) * (1 - cR)
       min s' 1 :: envLoop data step cA cR s' (i + 1) m) := rfl

/-- One-step unfolding of `envLoopClaim`. -/
theorem envLoopClaim_succ (data : List ℝ) (step : ℕ) (cA cR s : ℝ) (i m : ℕ) :
    envLoopClaim data step cA cR s i (m + 1) =
      (let peak := peakOf ((data.drop (i * step)).take step)
       let s' := if peak > s then peak + (s - peak) * (1 - cA)
                 else peak + (s - peak) * (1 - cR)
       min s' 1 :: envLoopClaim data step cA cR s' (i + 1) m) := rfl

/-- One-step unfolding of `envLoopAmended`. -/
theorem envLoopAmended_succ (data : List ℝ) (step : ℕ) (cA cR s : ℝ) (i m : ℕ) :
    envLoopAmended data step cA cR s i (m + 1) =
      (let peak := peakOf ((data.drop (i * step)).take step)
       let s' := if peak > s then peak + (s - peak) * cA
                 else peak + (s - peak) * cR
       min s' 1 :: envLoopAmended data step cA cR s' (i + 1) m) := rfl

/-- One-step unfolding of `grLoop`. -/
theorem grLoop_succ (envelope : List ℝ) (step : ℕ) (th k ρ cA cR g : ℝ)
    (i m : ℕ) :
    grLoop envelope step th k ρ cA cR g i (m + 1) =
      (let envValue := envelope.getD (min (i * step) (envelope.length - 1)) 0
       let gr := gainReductionDbVis (dbOf envValue) th k ρ
       let g' := if gr > g then gr + (g - gr) * cA else gr + (g - gr) * cR
       g' :: grLoop envelope step th k ρ cA cR g' (i + 1) m) := rfl

/-- C8: with `ratio ≤ 1` the gain-reduction series is the all-zero series of
the requested length (the early return fires before the smoothing pass). -/
theorem c8_ratio_one_short_circuit (envelope : List ℝ) (sr th k ρ a r : ℝ)
    (n : ℕ) (hρ : ρ ≤ 1) :
    calculateGainReduction envelope sr th k ρ a r n = List.replicate n 0 := by
  simp [calculateGainReduction, hρ]

/-- Witness for C8 at ratio 1 and requested length 3. -/
theorem c8_ratio_one_short_circuit_witness :
    (1 : ℝ) ≤ 1 ∧
    calculateGainReduction [1/2, 1] 44100 (-20) 10 1 0.003 0.01 3 =
      List.replicate 3 0 :=
  ⟨le_refl 1,
    c8_ratio_one_short_circuit [1/2, 1] 44100 (-20) 10 1 0.003 0.01 3 (le_refl 1)⟩

/-- The floored time constant is strictly positive. -/
theorem safeTime_pos (t : ℝ) : 0 < safeTime t :=
  lt_of_lt_of_le (by norm_num) (le_max_right t 0.00001)

/-- C5 counterexample: the sample-accurate compressor does NOT floor its
attack before computing the time constant. At `sampleRate = 100000` and
`attack = 0` its coefficient is 0 (`exp(-1/0⁺) = exp(-∞) = 0`), while the
floored visualization coefficient is `exp(-1) > 0`. -/
theorem c5_counterexample :
    compressorAttackCoeff 100000 ⟨-20, 0, 4, 0, 0.01⟩ ≠ envCoeff 100000 0 := by
  have h1 : compressorAttackCoeff 100000 ⟨-20, 0, 4, 0, 0.01⟩ = 0 := by
    simp [compressorAttackCoeff, expCoeff]
  have h2 : (0 : ℝ) < envCoeff 100000 0 := by
    rw [envCoeff, expCoeff, if_neg]
    · exact Real.exp_pos _
    · rw [safeTime, max_eq_right (by norm_num : (0:ℝ) ≤ 0.00001)]
      norm_num
  rw [h1]
  exact ne_of_lt h2

/-- C5 amended: only the two visualization smoothing passes floor
attack/release to `1e-5` (making the `exp` argument's denominator strictly
positive, so no division by zero arises there); the sample-accurate
compressor applies no floor, and at `attack = 0` / `release = 0` its
coefficient expression evaluates through `exp(-∞)` to 0. -/
theorem c5_epsilon_floor_amended (sr t : ℝ) (p : Params) (hsr : 0 < sr)
    (ha : p.attack = 0) (hr : p.release = 0) :
    0 < sr * safeTime t ∧
    envCoeff sr t = Real.exp (-1 / (sr * safeTime t)) ∧
    0 < sr * (safeTime t * 0.001) ∧
    grCoeff sr t = Real.exp (-1 / (sr * (safeTime t * 0.001))) ∧
    compressorAttackCoeff sr p = 0 ∧
    compressorReleaseCoeff sr p = 0 := by
  have hst := safeTime_pos t
  have h1 : 0 < sr * safeTime t := mul_pos hsr hst
  have h2 : 0 < sr * (safeTime t * 0.001) :=
    mul_pos hsr (mul_pos hst (by norm_num))
  refine ⟨h1, ?_, h2, ?_, ?_, ?_⟩
  · rw [envCoeff, expCoeff, if_neg h1.ne']
  · rw [grCoeff, expCoeff, if_neg h2.ne']
  · simp [compressorAttackCoeff, expCoeff, ha]
  · simp [compressorReleaseCoeff, expCoeff, hr]

/-- Witness for C5's amended statement at `sampleRate = 2`, `t = 0`. -/
theorem c5_epsilon_floor_amended_witness :
    0 < (2 : ℝ) * safeTime 0 ∧
    envCoeff 2 0 = Real.exp (-1 / (2 * safeTime 0)) ∧
    0 < (2 : ℝ) * (safeTime 0 * 0.001) ∧
    grCoeff 2 0 = Real.exp (-1 / (2 * (safeTime 0 * 0.001))) ∧
    compressorAttackCoeff 2 ⟨0, 0, 1, 0, 0⟩ = 0 ∧
    compressorReleaseCoeff 2 ⟨0, 0, 1, 0, 0⟩ = 0 :=
  c5_epsilon_floor_amended 2 0 ⟨0, 0, 1, 0, 0⟩ (by norm_num) rfl rfl

/-- C10: with `attack = 0` (resp. `release = 0`) the sample compressor's
coefficient expression evaluates to 0 — no error is raised — and the
envelope follower then copies `|sample|` exactly in that phase; the
compressor remains total (output buffer has one channel per input channel). -/
theorem c10_zero_time_constant_totality (sr : ℝ) (p : Params) (s x : ℝ)
    (b : List (List ℝ)) :
    (p.attack = 0 → compressorAttackCoeff sr p = 0) ∧
    (p.release = 0 → compressorReleaseCoeff sr p = 0) ∧
    (p.attack = 0 → s < x →
      envStep (compressorAttackCoeff sr p) (compressorReleaseCoeff sr p) s x = x) ∧
    (p.release = 0 → ¬ s < x →
      envStep (compressorAttackCoeff sr p) (compressorReleaseCoeff sr p) s x = x) ∧
    (applyCustomCompression sr p b).length = b.length := by
  refine ⟨?_, ?_, ?_, ?_, ?_⟩
  · intro ha; simp [compressorAttackCoeff, expCoeff, ha]
  · intro hr; simp [compressorReleaseCoeff, expCoeff, hr]
  · intro ha hx
    rw [envStep, if_pos hx]
    simp [compressorAttackCoeff, expCoeff, ha]
  · intro hr hx
    rw [envStep, if_neg hx]
    simp [compressorReleaseCoeff, expCoeff, hr]
  · exact List.length_map _ _

/-- Witness for C10 at `attack = release = 0`, state 0, input 1. -/
theorem c10_zero_time_constant_totality_witness :
    ((Params.mk 0 0 1 0 0).attack = 0 →
      compressorAttackCoeff 44100 ⟨0, 0, 1, 0, 0⟩ = 0) ∧
    ((Params.mk 0 0 1 0 0).release = 0 →
      compressorReleaseCoeff 44100 ⟨0, 0, 1, 0, 0⟩ = 0) ∧
    ((Params.mk 0 0 1 0 0).attack = 0 → (0 : ℝ) < 1 →
      envStep (compressorAttackCoeff 44100 ⟨0, 0, 1, 0, 0⟩)
        (compressorReleaseCoeff 44100 ⟨0, 0, 1, 0, 0⟩) 0 1 = 1) ∧
    ((Params.mk 0 0 1 0 0).release = 0 → ¬ (0 : ℝ) < 1 →
      envStep (compressorAttackCoeff 44100 ⟨0, 0, 1, 0, 0⟩)
        (compressorReleaseCoeff 44100 ⟨0, 0, 1, 0, 0⟩) 0 1 = 1) ∧
    (applyCustomCompression 44100 ⟨0, 0, 1, 0, 0⟩ [[1], [1/2]]).length =
      ([[1], [1/2]] : List (List ℝ)).length :=
  c10_zero_time_constant_totality 44100 ⟨0, 0, 1, 0, 0⟩ 0 1 [[1], [1/2]]

/-- C4 counterexample: one sample `[1]`, `sampleRate = 1`,
`attack = release = 1`, `outputLength = 1`. The source's update gives
`1 - exp(-1)` for the single output value; the claim's update
`s' = x + (s - x) * (1 - coeff)` gives `exp(-1)`; these differ since
`exp(-1) ≠ 1/2`. -/
theorem c4_counterexample :
    calculateEnvelope [1] 1 1 1 1 ≠ calculateEnvelopeClaim [1] 1 1 1 1 := by
  have hmax : safeTime (1 : ℝ) = 1 :=
    max_eq_left (by norm_num)
  have hc : envCoeff 1 1 = Real.exp (-1) := by
    rw [envCoeff, hmax, expCoeff, if_neg (by norm_num : ¬ (1 : ℝ) * 1 = 0)]
    norm_num
  have hcpos : 0 < Real.exp (-1) := Real.exp_pos _
  have hclt : Real.exp (-1) < 1 := by
    calc Real.exp (-1) < Real.exp 0 := Real.exp_lt_exp.mpr (by norm_num)
      _ = 1 := Real.exp_zero
  have hstep : ceilDiv (List.length [(1 : ℝ)]) 1 = 1 := by
    simp [ceilDiv]
  have hpeak : peakOf ((([1] : List ℝ).drop (0 * 1)).take 1) = 1 := by
    simp [peakOf]
  have e1 : calculateEnvelope [1] 1 1 1 1 = [min (1 - Real.exp (-1)) 1] := by
    rw [calculateEnvelope, hc, hstep,
      show (1 : ℕ) = 0 + 1 from rfl, envLoop_succ]
    simp only [hpeak]
    rw [if_pos (by norm_num : (1 : ℝ) > 0)]
    norm_num [envLoop]
  have e2 : calculateEnvelopeClaim [1] 1 1 1 1 = [min (Real.exp (-1)) 1] := by
    rw [calculateEnvelopeClaim, hc, hstep,
      show (1 : ℕ) = 0 + 1 from rfl, envLoopClaim_succ]
    simp only [hpeak]
    rw [if_pos (by norm_num : (1 : ℝ) > 0)]
    have : (1 : ℝ) + (0 - 1) * (1 - Real.exp (-1)) = Real.exp (-1) := by ring
    rw [this]
    norm_num [envLoopClaim]
  rw [e1, e2]
  intro h
  have h' := List.head_eq_of_cons_eq h
  rw [min_eq_left (by linarith), min_eq_left hclt.le] at h'
  have hne : Real.exp (-1) ≠ 1 / 2 := by
    intro he
    have : Real.exp 1 = 2 := by
      have := Real.exp_neg 1
      rw [he] at this
      have h2 : (Real.exp 1)⁻¹ = (2 : ℝ)⁻¹ := by
        rw [← this]; norm_num
      exact inv_injective h2
    linarith [Real.exp_one_gt_d9]
  apply hne
  linarith

/-- The source's per-segment update `s + (x - s) * (1 - coeff)` equals the
amended form `x + (s - x) * coeff` at every step, so the two loops agree. -/
theorem envLoop_eq_amended (data : List ℝ) (step : ℕ) (cA cR : ℝ) :
    ∀ (m i : ℕ) (s : ℝ),
      envLoop data step cA cR s i m = envLoopAmended data step cA cR s i m := by
  intro m
  induction m with
  | zero => intro i s; rfl
  | succ m ih =>
    intro i s
    rw [envLoop_succ, envLoopAmended_succ]
    simp only
    have hupd : ∀ x : ℝ,
        (if x > s then s + (x - s) * (1 - cA) else s + (x - s) * (1 - cR)) =
        (if x > s then x + (s - x) * cA else x + (s - x) * cR) := by
      intro x; split_ifs <;> ring
    rw [hupd, ih]

/-- C4 amended: the visualization envelope divides channel 0 into
`outputLength` segments of length `ceil(totalSamples / outputLength)`,
takes the maximum absolute sample of each segment as `x`, and advances the
state once per segment by `s' = x + (s - x) * coeff` (equivalently the
source's `s' = s + (x - s) * (1 - coeff)`), with the attack coefficient
when `x > s` and the release coefficient otherwise. -/
theorem c4_segment_envelope_amended (data : List ℝ) (sr a r : ℝ) (n : ℕ) :
    calculateEnvelope data sr a r n = calculateEnvelopeAmended data sr a r n :=
  envLoop_eq_amended data (ceilDiv data.length n)
    (envCoeff sr a) (envCoeff sr r) n 0 0

/-- The time-constant coefficient is never negative. -/
theorem expCoeff_nonneg (sr t : ℝ) : 0 ≤ expCoeff sr t := by
  unfold expCoeff
  split_ifs
  · exact le_refl 0
  · exact (Real.exp_pos _).le

/-- The time-constant coefficient is at most 1 when `sampleRate * t ≥ 0`. -/
theorem expCoeff_le_one (sr t : ℝ) (h : 0 ≤ sr * t) : expCoeff sr t ≤ 1 := by
  unfold expCoeff
  split_ifs with h0
  · norm_num
  · calc Real.exp (-1 / (sr * t)) ≤ Real.exp 0 :=
        Real.exp_le_exp.mpr (div_nonpos_of_nonpos_of_nonneg (by norm_num) h)
    _ = 1 := Real.exp_zero

/-- The peak scan is never negative from a nonnegative accumulator. -/
theorem foldl_max_abs_nonneg (l : List ℝ) :
    ∀ m : ℝ, 0 ≤ m → 0 ≤ l.foldl (fun p x => max p |x|) m := by
  induction l with
  | nil => intro m hm; exact hm
  | cons x rest ih =>
    intro m hm
    exact ih _ (le_trans hm (le_max_left _ _))

/-- Segment peaks are nonnegative. -/
theorem peakOf_nonneg (l : List ℝ) : 0 ≤ peakOf l :=
  foldl_max_abs_nonneg l 0 (le_refl 0)

/-- The envelope loop emits exactly one value per requested step. -/
theorem envLoop_length (data : List ℝ) (step : ℕ) (cA cR : ℝ) :
    ∀ (m i : ℕ) (s : ℝ), (envLoop data step cA cR s i m).length = m := by
  intro m
  induction m with
  | zero => intro i s; rfl
  | succ m ih =>
    intro i s
    rw [envLoop_succ]
    simp only [List.length_cons]
    rw [ih]

/-- Every envelope value lies in `[0, 1]` when both coefficients lie in
`[0, 1]` and the incoming state is nonnegative. -/
theorem envLoop_mem_bounds (data : List ℝ) (step : ℕ) (cA cR : ℝ)
    (hA0 : 0 ≤ cA) (hA1 : cA ≤ 1) (hR0 : 0 ≤ cR) (hR1 : cR ≤ 1) :
    ∀ (m i : ℕ) (s : ℝ), 0 ≤ s →
      ∀ v ∈ envLoop data step cA cR s i m, 0 ≤ v ∧ v ≤ 1 := by
  intro m
  induction m with
  | zero =>
    intro i s _ v hv
    simp [envLoop] at hv
  | succ m ih =>
    intro i s hs v hv
    rw [envLoop_succ] at hv
    simp only at hv
    set peak := peakOf ((data.drop (i * step)).take step) with hpk
    have hpk0 : 0 ≤ peak := peakOf_nonneg _
    have hs' : 0 ≤ (if peak > s then s + (peak - s) * (1 - cA)
        else s + (peak - s) * (1 - cR)) := by
      split_ifs
      · nlinarith [mul_nonneg hs hA0, mul_nonneg hpk0 (sub_nonneg.mpr hA1)]
      · nlinarith [mul_nonneg hs hR0, mul_nonneg hpk0 (sub_nonneg.mpr hR1)]
    rcases List.mem_cons.mp hv with h | h
    · subst h
      exact ⟨le_min hs' zero_le_one, min_le_right _ _⟩
    · exact ih (i + 1) _ hs' v h

/-- The gain-reduction loop emits exactly one value per requested step. -/
theorem grLoop_length (envelope : List ℝ) (step : ℕ) (th k ρ cA cR : ℝ) :
    ∀ (m i : ℕ) (g : ℝ),
      (grLoop envelope step th k ρ cA cR g i m).length = m := by
  intro m
  induction m with
  | zero => intro i g; rfl
  | succ m ih =>
    intro i g
    rw [grLoop_succ]
    simp only [List.length_cons]
    rw [ih]

/-- Every smoothed gain-reduction value is nonnegative when `knee ≥ 0`,
`ratio ≥ 1`, both coefficients lie in `[0, 1]` and the incoming state is
nonnegative. -/
theorem grLoop_mem_nonneg (envelope : List ℝ) (step : ℕ) (th k ρ cA cR : ℝ)
    (hk : 0 ≤ k) (hρ : 1 ≤ ρ)
    (hA0 : 0 ≤ cA) (hA1 : cA ≤ 1) (hR0 : 0 ≤ cR) (hR1 : cR ≤ 1) :
    ∀ (m i : ℕ) (g : ℝ), 0 ≤ g →
      ∀ v ∈ grLoop envelope step th k ρ cA cR g i m, 0 ≤ v := by
  intro m
  induction m with
  | zero =>
    intro i g _ v hv
    simp [grLoop] at hv
  | succ m ih =>
    intro i g hg v hv
    rw [grLoop_succ] at hv
    simp only at hv
    set gr := gainReductionDbVis
      (dbOf (envelope.getD (min (i * step) (envelope.length - 1)) 0)) th k ρ
      with hgr
    have hgr0 : 0 ≤ gr := by
      rw [hgr, gainReductionDbVis_eq]
      exact gainReductionDb_nonneg _ _ _ _ hk hρ
    have hg' : 0 ≤ (if gr > g then gr + (g - gr) * cA else gr + (g - gr) * cR) := by
      split_ifs
      · nlinarith [mul_nonneg hg hA0, mul_nonneg hgr0 (sub_nonneg.mpr hA1)]
      · nlinarith [mul_nonneg hg hR0, mul_nonneg hgr0 (sub_nonneg.mpr hR1)]
    rcases List.mem_cons.mp hv with h | h
    · subst h; exact hg'
    · exact ih (i + 1) _ hg' v h

/-- C7: for any channel data, positive sample rate, `knee ≥ 0` and any
requested `outputLength`, the visualization returns an envelope series and a
gain-reduction series each of exactly the requested length, every envelope
value in `[0, 1]` (clamped at 1) and every gain-reduction value `≥ 0`. -/
theorem c7_visualization_shape (data : List ℝ) (sr th k ρ a r : ℝ) (n : ℕ)
    (hsr : 0 < sr) (hk : 0 ≤ k) :
    (calculateEnvelope data sr a r n).length = n ∧
    (∀ v ∈ calculateEnvelope data sr a r n, 0 ≤ v ∧ v ≤ 1) ∧
    (calculateGainReduction (calculateEnvelope data sr a r n)
      sr th k ρ a r n).length = n ∧
    (∀ g ∈ calculateGainReduction (calculateEnvelope data sr a r n)
      sr th k ρ a r n, 0 ≤ g) := by
  have hEnvA0 : 0 ≤ envCoeff sr a := expCoeff_nonneg _ _
  have hEnvA1 : envCoeff sr a ≤ 1 :=
    expCoeff_le_one _ _ (mul_nonneg hsr.le (safeTime_pos a).le)
  have hEnvR0 : 0 ≤ envCoeff sr r := expCoeff_nonneg _ _
  have hEnvR1 : envCoeff sr r ≤ 1 :=
    expCoeff_le_one _ _ (mul_nonneg hsr.le (safeTime_pos r).le)
  refine ⟨?_, ?_, ?_, ?_⟩
  · exact envLoop_length data _ _ _ n 0 0
  · exact envLoop_mem_bounds data _ _ _ hEnvA0 hEnvA1 hEnvR0 hEnvR1
      n 0 0 (le_refl 0)
  · unfold calculateGainReduction
    split_ifs
    · exact List.length_replicate _ _
    · exact grLoop_length _ _ _ _ _ _ _ n 0 0
  · unfold calculateGainReduction
    split_ifs with hρ1
    · intro g hg
      rw [List.eq_of_mem_replicate hg]
    · push_neg at hρ1
      exact grLoop_mem_nonneg _ _ _ _ _ _ _ hk hρ1.le
        (expCoeff_nonneg _ _)
        (expCoeff_le_one _ _
          (mul_nonneg hsr.le (mul_nonneg (safeTime_pos a).le (by norm_num))))
        (expCoeff_nonneg _ _)
        (expCoeff_le_one _ _
          (mul_nonneg hsr.le (mul_nonneg (safeTime_pos r).le (by norm_num))))
        n 0 0 (le_refl 0)

/-- Witness for C7 on a concrete two-sample buffer at output length 2. -/
theorem c7_visualization_shape_witness :
    (0 : ℝ) < 44100 ∧ (0 : ℝ) ≤ 10 ∧
    (calculateEnvelope [3/5, -1] 44100 0.003 0.01 2).length = 2 ∧
    (∀ v ∈ calculateEnvelope [3/5, -1] 44100 0.003 0.01 2, 0 ≤ v ∧ v ≤ 1) ∧
    (calculateGainReduction (calculateEnvelope [3/5, -1] 44100 0.003 0.01 2)
      44100 (-20) 10 4 0.003 0.01 2).length = 2 ∧
    (∀ g ∈ calculateGainReduction (calculateEnvelope [3/5, -1] 44100 0.003 0.01 2)
      44100 (-20) 10 4 0.003 0.01 2, 0 ≤ g) := by
  have h := c7_visualization_shape [3/5, -1] 44100 (-20) 10 4 0.003 0.01 2
    (by norm_num) (by norm_num)
  exact ⟨by norm_num, by norm_num, h.1, h.2.1, h.2.2.1, h.2.2.2⟩

/-- Scaling every sample by a nonnegative factor scales the peak scan of a
channel by the same factor. -/
theorem foldl_max_abs_scale (κ : ℝ) (hκ : 0 ≤ κ) (ch : List ℝ) :
    ∀ m : ℝ, ((ch.map fun x => x * κ).foldl (fun p x => max p |x|) (m * κ)) =
      (ch.foldl (fun p x => max p |x|) m) * κ := by
  induction ch with
  | nil => intro m; rfl
  | cons x rest ih =>
    intro m
    simp only [List.map_cons, List.foldl_cons]
    rw [show |x * κ| = |x| * κ by rw [abs_mul, abs_of_nonneg hκ],
      show max (m * κ) (|x| * κ) = max m |x| * κ from (max_mul_of_nonneg _ _ hκ).symm]
    exact ih (max m |x|)

/-- Scaling every sample of every channel by a nonnegative factor scales the
buffer peak by the same factor. -/
theorem maxPeak_scale (κ : ℝ) (hκ : 0 ≤ κ) (b : List (List ℝ)) :
    maxPeak (b.map (List.map fun x => x * κ)) = maxPeak b * κ := by
  unfold maxPeak
  have key : ∀ (bs : List (List ℝ)) (acc : ℝ),
      (bs.map (List.map fun x => x * κ)).foldl
        (fun acc ch => ch.foldl (fun m x => max m |x|) acc) (acc * κ) =
      bs.foldl (fun acc ch => ch.foldl (fun m x => max m |x|) acc) acc * κ := by
    intro bs
    induction bs with
    | nil => intro acc; rfl
    | cons ch rest ih =>
      intro acc
      simp only [List.map_cons, List.foldl_cons]
      rw [foldl_max_abs_scale κ hκ ch acc]
      exact ih _
  calc (b.map (List.map fun x => x * κ)).foldl
        (fun acc ch => ch.foldl (fun m x => max m |x|) acc) 0
      = (b.map (List.map fun x => x * κ)).foldl
        (fun acc ch => ch.foldl (fun m x => max m |x|) acc) (0 * κ) := by
        rw [zero_mul]
    _ = b.foldl (fun acc ch => ch.foldl (fun m x => max m |x|) acc) 0 * κ :=
        key b 0

/-- A buffer whose peak does not exceed 1 passes through unchanged. -/
theorem normalize_of_peak_le (b : List (List ℝ)) (h : maxPeak b ≤ 1) :
    normalize b = b := by
  unfold normalize
  exact if_neg (not_lt.mpr h)

/-- C9: the normalizer scans all channels for the maximum absolute sample,
scales every sample by `1 / maxPeak` exactly when the peak exceeds 1, is a
no-op otherwise, and is idempotent. -/
theorem c9_peak_normalizer (b : List (List ℝ)) :
    normalize (normalize b) = normalize b ∧
    (1 < maxPeak b → normalize b = b.map (List.map fun x => x * (1 / maxPeak b))) ∧
    (maxPeak b ≤ 1 → normalize b = b) := by
  refine ⟨?_, fun h => by unfold normalize; exact if_pos h, normalize_of_peak_le b⟩
  by_cases h : 1 < maxPeak b
  · have hM0 : (0 : ℝ) < maxPeak b := lt_trans one_pos h
    have hκ : (0 : ℝ) ≤ 1 / maxPeak b := by positivity
    have h1 : normalize b = b.map (List.map fun x => x * (1 / maxPeak b)) := by
      unfold normalize; exact if_pos h
    have h2 : maxPeak (normalize b) = 1 := by
      rw [h1, maxPeak_scale _ hκ b, mul_one_div, div_self hM0.ne']
    exact normalize_of_peak_le (normalize b) (le_of_eq h2)
  · rw [normalize_of_peak_le b (not_lt.mp h)]
    exact normalize_of_peak_le b (not_lt.mp h)

/-- Witness for C9 on a buffer whose peak is 2 and on one whose peak is 1/2,
exercising both branches through the proved theorem. -/
theorem c9_peak_normalizer_witness :
    (normalize (normalize [[2, -1], [1/2]]) = normalize [[2, -1], [1/2]] ∧
      (1 < maxPeak [[2, -1], [1/2]] →
        normalize [[2, -1], [1/2]] =
          [[2, -1], [1/2]].map
            (List.map fun x => x * (1 / maxPeak [[2, -1], [1/2]]))) ∧
      (maxPeak [[2, -1], [1/2]] ≤ 1 →
        normalize [[2, -1], [1/2]] = [[2, -1], [1/2]])) ∧
    (normalize (normalize [[1/2]]) = normalize [[1/2]] ∧
      (1 < maxPeak [[1/2]] →
        normalize [[1/2]] = [[1/2]].map
          (List.map fun x => x * (1 / maxPeak [[1/2]]))) ∧
      (maxPeak [[1/2]] ≤ 1 → normalize [[1/2]] = [[1/2]])) :=
  ⟨c9_peak_normalizer [[2, -1], [1/2]], c9_peak_normalizer [[1/2]]⟩

end

end Compressor
